import Mathlib

/-!
Shallow embedding of the ftl library headers `maybe.h` and `tuple.h`.

A well-formed `maybe<A>` is determined by its contents, so it is modelled as
`Option α`.  Where the raw storage discipline matters (assignment with a
throwing inner constructor, self-assignment, moves) the object is modelled by
`MaybeState`, an explicit pair of the `isValid` presence flag and the
optional live contents of the storage cell, so that the flag and the cell can
disagree exactly when the source code lets them.
-/

/-- The raw state of a `maybe` object: the `isValid` flag together with the
contents of the storage cell (`some a` when a constructed `A` is live in the
cell, `none` when the cell is dead).  Invariant I1 of the spec holds iff
`val.isSome = isValid`; the embedding keeps the two fields separate so that
states violating I1 are representable. -/
structure MaybeState (α : Type) where
  isValid : Bool
  val : Option α
deriving DecidableEq, Repr

/-- The well-formed state denoted by an `Option`: present values have the
flag set and the cell live, absent ones have the flag clear and the cell
dead. -/
def MaybeState.ofOption : Option α → MaybeState α
  | some a => ⟨true, some a⟩
  | none => ⟨false, none⟩

/-- Error kinds observable at the library boundary (spec section 7). -/
inductive ErrKind where
  | AbsentAccess
deriving DecidableEq, Repr

/-- maybe::operator* (const overload, shared read): throws `AbsentAccess`
when the flag is clear, otherwise yields the contained value.  The operator
performs no writes, so the second component is the state of the object after
the call. -/
def derefShared (m : Option α) : Except ErrKind α × Option α :=
  match m with
  | none => (Except.error ErrKind.AbsentAccess, none)
  | some a => (Except.ok a, some a)

/-- maybe::operator* (non-const overload, exclusive read): identical logic to
the const overload. -/
def derefExcl (m : Option α) : Except ErrKind α × Option α :=
  match m with
  | none => (Except.error ErrKind.AbsentAccess, none)
  | some a => (Except.ok a, some a)

/-- Whether an `Except` is the failure case. -/
def isErr : Except ε α → Bool
  | Except.error _ => true
  | Except.ok _ => false

/-- maybe::maybe(maybe&&), the move constructor: the destination copies the
flag; when the source is valid the value is moved in and the source flag is
cleared.  Returns (destination state, source state after the move). -/
def moveCtor (src : Option α) : MaybeState α × Option α :=
  match src with
  | some a => (⟨true, some a⟩, none)
  | none => (⟨false, none⟩, none)

/-- maybe::operator=(maybe&&), the move assignment: on self-assignment the
object is returned untouched; otherwise the old contents are destroyed
(`self_destruct`), the flag is copied, and when the source is valid its value
is moved in and its flag cleared.  Returns (destination state, source state,
whether the old destination contents were destroyed). -/
def moveAssign (isSelf : Bool) (dest src : Option α) :
    MaybeState α × Option α × Bool :=
  if isSelf then (MaybeState.ofOption dest, src, false)
  else
    match src with
    | none => (⟨false, none⟩, none, dest.isSome)
    | some a => (⟨true, some a⟩, none, dest.isSome)

/-- maybe::operator=(const maybe&), the copy assignment, with a fallible
inner copy constructor `copyA`.  On self-assignment the object is returned
untouched.  Otherwise the old contents are destroyed, then — exactly as in
the source — the flag is assigned `m.isValid` BEFORE the placement-new runs,
so if `copyA` throws, the exception escapes while the flag is already set and
the cell is still dead: the error case carries the propagated inner error and
the destination state at the throw point.  The success case returns the new
destination state and whether the old contents were destroyed. -/
def copyAssign (copyA : α → Except ε α) (isSelf : Bool) (dest src : Option α) :
    Except (ε × MaybeState α) (MaybeState α × Bool) :=
  if isSelf then Except.ok (MaybeState.ofOption dest, false)
  else
    match src with
    | none => Except.ok (⟨false, none⟩, dest.isSome)
    | some a =>
      match copyA a with
      | Except.ok b => Except.ok (⟨true, some b⟩, dest.isSome)
      | Except.error e => Except.error (e, ⟨true, none⟩)

/-- monoid<maybe<A>>::id. -/
def maybeId : Option γ := none

/-- monoid<maybe<A>>::append, lifting the append `app` of the value type. -/
def maybeAppend (app : γ → γ → γ) : Option γ → Option γ → Option γ
  | some x, some y => some (app x y)
  | some x, none => some x
  | none, some y => some y
  | none, none => none

/-- monad<maybe>::pure. -/
def monadPure (a : α) : Option α := some a

/-- monad<maybe>::map: apply `f` when the maybe is a value, else nothing. -/
def monadMap (f : α → β) (m : Option α) : Option β :=
  match m with
  | some a => some (f a)
  | none => none

/-- monad<maybe>::bind: feed the value to `f` when present, else nothing. -/
def monadBind (m : Option α) (f : α → Option β) : Option β :=
  match m with
  | some a => f a
  | none => none

/-- C4: unwrapping a maybe (both the shared-read and the exclusive-read
dereference) fails with `AbsentAccess` exactly when the maybe is absent,
returns the contained value when present, and leaves presence unchanged. -/
theorem maybe_deref_spec (m : Option α) (a : α) :
    (isErr (derefShared m).1 = true ↔ m = none)
    ∧ (isErr (derefExcl m).1 = true ↔ m = none)
    ∧ derefShared (some a) = (Except.ok a, some a)
    ∧ derefExcl (some a) = (Except.ok a, some a)
    ∧ derefShared (none : Option α) = (Except.error ErrKind.AbsentAccess, none)
    ∧ derefExcl (none : Option α) = (Except.error ErrKind.AbsentAccess, none)
    ∧ (derefShared m).2 = m
    ∧ (derefExcl m).2 = m := by
  cases m <;> simp [derefShared, derefExcl, isErr]

/-- C5: moving from a present maybe (by move construction or non-self move
assignment) leaves the source absent and the destination present with the
value the source held; moving from an absent source leaves the destination
absent. -/
theorem maybe_move_transfer (a : α) (d : Option α) :
    moveCtor (some a) = (⟨true, some a⟩, none)
    ∧ moveCtor (none : Option α) = (⟨false, none⟩, none)
    ∧ moveAssign false d (some a) = (⟨true, some a⟩, none, d.isSome)
    ∧ moveAssign false d (none : Option α) = (⟨false, none⟩, none, d.isSome) := by
  refine ⟨rfl, rfl, ?_, ?_⟩ <;> simp [moveAssign]

/-- C6: map over maybe sends present(x) to present (f x) and absent to
absent; bind sends present(x) to k x and absent to absent. -/
theorem maybe_map_bind_spec (f : α → β) (k : α → Option β) (x : α) :
    monadMap f (some x) = some (f x)
    ∧ monadMap f (none : Option α) = none
    ∧ monadBind (some x) k = k x
    ∧ monadBind (none : Option α) k = none :=
  ⟨rfl, rfl, rfl, rfl⟩

/-- C8: the maybe monad satisfies left identity, right identity and
associativity. -/
theorem maybe_monad_laws (a : α) (k : α → Option β) (h : β → Option δ)
    (m : Option α) :
    monadBind (monadPure a) k = k a
    ∧ monadBind m monadPure = m
    ∧ monadBind (monadBind m k) h = monadBind m (fun x => monadBind (k x) h) := by
  refine ⟨rfl, ?_, ?_⟩ <;> cases m <;> simp [monadBind, monadPure]

/-- C9: when the value type append is associative, the lifted monoid on
maybe has absence as a two-sided identity and is associative. -/
theorem maybe_monoid_laws (app : γ → γ → γ)
    (hassoc : ∀ x y z, app (app x y) z = app x (app y z)) :
    (∀ m : Option γ, maybeAppend app maybeId m = m
      ∧ maybeAppend app m maybeId = m)
    ∧ (∀ x y z : Option γ, maybeAppend app (maybeAppend app x y) z
        = maybeAppend app x (maybeAppend app y z)) := by
  constructor
  · intro m
    cases m <;> simp [maybeAppend, maybeId]
  · intro x y z
    cases x <;> cases y <;> cases z <;> simp [maybeAppend, hassoc]

/-- C9 witness: the lifted monoid laws at the natural-number addition monoid
and concrete maybes. -/
theorem maybe_monoid_laws_witness :
    (maybeAppend Nat.add maybeId (some 3) = some 3
      ∧ maybeAppend Nat.add (some 3) maybeId = some 3)
    ∧ maybeAppend Nat.add (maybeAppend Nat.add (some 1) (some 2)) (some 3)
        = maybeAppend Nat.add (some 1) (maybeAppend Nat.add (some 2) (some 3)) :=
  ⟨(maybe_monoid_laws Nat.add Nat.add_assoc).1 (some 3),
   (maybe_monoid_laws Nat.add Nat.add_assoc).2 (some 1) (some 2) (some 3)⟩

/-- C10: assigning a maybe to itself (copy or move) leaves it unchanged:
presence preserved, contained value neither destroyed nor replaced. -/
theorem maybe_self_assign_frame (copyA : α → Except Unit α) (m : Option α) :
    copyAssign copyA true m m = Except.ok (MaybeState.ofOption m, false)
    ∧ moveAssign true m m = (MaybeState.ofOption m, m, false) := by
  constructor <;> simp [copyAssign, moveAssign]

/-- C2: evaluating the copy assignment at a present source whose inner copy
constructor throws: the code has already set the presence flag, so the
destination is left reporting present with a dead storage cell — not absent
as the spec requires. -/
theorem maybe_copy_assign_exception_state :
    copyAssign (fun _ => Except.error ()) false (some 0) (some (1 : Nat))
      = Except.error ((), ⟨true, none⟩)
    ∧ (⟨true, none⟩ : MaybeState Nat).isValid = true
    ∧ (⟨true, none⟩ : MaybeState Nat) ≠ MaybeState.ofOption none := by
  refine ⟨rfl, rfl, ?_⟩
  decide

/-- The tuple model used for the tuple instances: a distinguished head of
type α followed by the accumulating tail positions, rendered as a list over
a single component type γ (the source instances act uniformly,
position by position, on the tail). Position 0 of the source tuple is the
head; position i for i ≥ 1 is tail index i - 1. -/
structure Tup (α γ : Type) where
  head : α
  tail : List γ
deriving DecidableEq, Repr

/-- Modelled from the spec: the compile-time index-sequence generators
`seq` and `gen_seq` live in headers of this repository that are not present
here; spec section 1 places sequence generators out of scope as helpers the
implementer rebuilds freely, and section 4.5 fixes the behavior of their
call sites, so a sequence with endpoints a and b denotes the inclusive
index range [a..b]. -/
def seqRange (a b : Nat) : List Nat :=
  (List.range (b + 1 - a)).map (· + a)

/-- tup_apply(seq<S...>, f, t): invokes f with std::get of t at the
positions S, in order. An out-of-range position cannot occur in the typed
source and is modelled by a default element. -/
def tup_apply (dflt : α) (s : List Nat) (f : List α → β) (t : List α) : β :=
  f (s.map (fun i => t.getD i dflt))

/-- ftl::apply(f, t): tup_apply over the sequence with endpoints 0 and
sizeof...(Ts) - 1. -/
def ftlApply (dflt : α) (f : List α → β) (t : List α) : β :=
  tup_apply dflt (seqRange 0 (t.length - 1)) f t

/-- Reading every position of a list in index order reproduces the list. -/
theorem range_map_getD (d : α) :
    ∀ t : List α, (List.range t.length).map (fun i => t.getD i d) = t := by
  intro t
  induction t with
  | nil => simp
  | cons x xs ih =>
    rw [List.length_cons, List.range_succ_eq_map, List.map_cons, List.map_map]
    simp only [Function.comp_def, Nat.succ_eq_add_one, List.getD_cons_zero,
      List.getD_cons_succ]
    rw [ih]

/-- Combining two equal-length lists position by position in index order is
zipWith. -/
theorem range_map_getD_zip (app : γ → γ → γ) (d : γ) :
    ∀ xs ys : List γ, xs.length = ys.length →
      (List.range xs.length).map (fun i => app (xs.getD i d) (ys.getD i d))
        = List.zipWith app xs ys := by
  intro xs
  induction xs with
  | nil => intro ys h; simp
  | cons x xs ih =>
    intro ys h
    cases ys with
    | nil => simp at h
    | cons y ys =>
      simp only [List.length_cons, Nat.succ.injEq] at h
      rw [List.length_cons, List.range_succ_eq_map, List.map_cons,
        List.map_map, List.zipWith_cons_cons]
      simp only [Function.comp_def, Nat.succ_eq_add_one, List.getD_cons_zero,
        List.getD_cons_succ]
      rw [ih ys h]

/-- C3: the free helper apply invokes f with exactly the elements of t, in
positional order, and returns the result of f (the source sequence endpoints
underflow on an empty tuple, so the tuple is nonempty). -/
theorem apply_positional (dflt : α) (f : List α → β) (t : List α)
    (h : 0 < t.length) : ftlApply dflt f t = f t := by
  unfold ftlApply tup_apply seqRange
  have hn : t.length - 1 + 1 - 0 = t.length := by omega
  rw [hn, List.map_map]
  have : ((fun i => t.getD i dflt) ∘ fun i => i + 0)
      = fun i => t.getD i dflt := by
    funext i
    simp [Function.comp]
  rw [this, range_map_getD]

/-- C3 witness: apply at the identity function and the three-element tuple
(1, 2, 3). -/
theorem apply_positional_witness :
    0 < [1, 2, 3].length
    ∧ ftlApply 9 (fun l => l) [1, 2, 3] = [1, 2, 3] :=
  ⟨by decide, apply_positional 9 (fun l => l) [1, 2, 3] (by decide)⟩

/-- apply_on_first(t1, t2, seq<S...>): the head of the result applies the
head of t1 to the head of t2; each position i drawn from s contributes
append of get i of t1 and get i of t2, via the component monoid append
`app`. An out-of-range position cannot occur in the typed source and is
modelled by a default element. -/
def apply_on_first (dflt : γ) (app : γ → γ → γ) (s : List Nat)
    (t1 : Tup (α → β) γ) (t2 : Tup α γ) : Tup β γ :=
  ⟨t1.head t2.head,
    s.map (fun i =>
      app (t1.tail.getD (i - 1) dflt) (t2.tail.getD (i - 1) dflt))⟩

/-- applicative_implementation(t1, t2): apply_on_first over gen_seq with the
endpoints 1 and sizeof...(Ts), the tail positions. -/
def applicative_implementation (dflt : γ) (app : γ → γ → γ)
    (t1 : Tup (α → β) γ) (t2 : Tup α γ) : Tup β γ :=
  apply_on_first dflt app (seqRange 1 t1.tail.length) t1 t2

/-- applicative<std::tuple>::pure for a tuple with k tail positions whose
component monoids share the identity element `mid`: make_tuple of the head
and one identity per tail position. -/
def applicativePure (mid : γ) (k : Nat) (a : α) : Tup α γ :=
  ⟨a, List.replicate k mid⟩

/-- C7: tuple applicative pure yields the head with the identity element at
every tail position, and apply yields the head of t1 applied to the head of
t2 with each tail position combined by the component monoid append. -/
theorem tuple_applicative_spec (mid dflt : γ) (app : γ → γ → γ) (k i : Nat)
    (a : α) (t1 : Tup (α → β) γ) (t2 : Tup α γ)
    (h : t1.tail.length = t2.tail.length) (hik : i < k) :
    (applicativePure mid k a).head = a
    ∧ (applicativePure mid k a).tail.getD i dflt = mid
    ∧ applicative_implementation dflt app t1 t2
        = ⟨t1.head t2.head, List.zipWith app t1.tail t2.tail⟩ := by
  refine ⟨rfl, ?_, ?_⟩
  · have hlen : i < (List.replicate k mid).length := by
      simpa using hik
    rw [applicativePure, List.getD_eq_getElem _ _ hlen, List.getElem_replicate]
  · unfold applicative_implementation apply_on_first seqRange
    have hk : t1.tail.length + 1 - 1 = t1.tail.length := by omega
    rw [hk, List.map_map]
    have hfun : ((fun i =>
          app (t1.tail.getD (i - 1) dflt) (t2.tail.getD (i - 1) dflt))
            ∘ fun i => i + 1)
        = fun i => app (t1.tail.getD i dflt) (t2.tail.getD i dflt) := by
      funext i
      simp [Function.comp]
    rw [hfun, range_map_getD_zip app dflt t1.tail t2.tail h]

/-- C7 witness: pure and apply at concrete tuples with the addition monoid
on the tail positions. -/
theorem tuple_applicative_spec_witness :
    (applicativePure (5 : Nat) 2 (7 : Nat)).head = 7
    ∧ (applicativePure (5 : Nat) 2 (7 : Nat)).tail.getD 0 9 = 5
    ∧ applicative_implementation 9 Nat.add (Tup.mk Nat.succ [1, 2])
        (Tup.mk (7 : Nat) [3, 4])
      = Tup.mk ((Tup.mk Nat.succ [1, 2]).head (Tup.mk (7 : Nat) [3, 4]).head)
          (List.zipWith Nat.add [1, 2] [3, 4]) :=
  tuple_applicative_spec 5 9 Nat.add 2 0 7 (Tup.mk Nat.succ [1, 2])
    (Tup.mk 7 [3, 4]) (by decide) (by decide)

/-- Position-wise assignment of the first n source-tail elements over the
target tail, as the recursion tup<N>::fmap performs for the tuple positions
1..N; positions beyond n keep the target values. -/
def copyPositions : Nat → List γ → List γ → List γ
  | _, [], _ => []
  | 0, rs, _ => rs
  | n + 1, _ :: rs, x :: xs => x :: copyPositions n rs xs
  | _ + 1, rs, [] => rs

/-- tup<N, tuple>::fmap(f, ret, o): assigns f applied to the head of o into
the head of ret and copies positions 1..N of o into ret, then returns the
new value of ret; n is N, the count of tail positions written. -/
def tupFmapWrite (f : α → α) (n : Nat) (ret o : Tup α γ) : Tup α γ :=
  ⟨f o.head, copyPositions n ret.tail o.tail⟩

/-- functor<std::tuple>::map exactly as written in the source: `ret` is
default-constructed (the `dflt` argument), the helper is invoked as
fmap(f, t, ret) — so the write target is the input `t` and the read source
is the default-constructed `ret` — with N = sizeof...(Ts) - 1, and `ret` is
then returned. The result models (the returned tuple, the final value of
the argument t). The head types of argument and result coincide because the
helper call only typechecks when B = A. -/
def functorTupleMap (dflt : Tup α γ) (f : α → α) (t : Tup α γ) :
    Tup α γ × Tup α γ :=
  (dflt, tupFmapWrite f (t.tail.length - 1) t dflt)

/-- C1: evaluating the tuple functor map as written at f = succ and
t = (41, 7), where the default-constructed tuple is (0, 0): the call
returns the default-constructed tuple (0, 0) — not (42, 7), the head
transformed with the tail copied, as the claim states — and in addition
overwrites the input tuple with (1, 7). -/
theorem tuple_functor_map_returns_default :
    functorTupleMap (Tup.mk 0 [0]) Nat.succ (Tup.mk 41 [7])
      = (Tup.mk 0 [0], Tup.mk 1 [7])
    ∧ (functorTupleMap (Tup.mk 0 [0]) Nat.succ (Tup.mk 41 [7])).1
        ≠ (Tup.mk 42 [7] : Tup Nat Nat) := by
  decide
